import Mathlib

/-!
Verification development for the audio capture core: a shallow embedding of
the circular sample buffer (`src-tauri/src/audio/buffer.rs`) and the
energy-based voice activity detector
(`reference-implementation/src-tauri/src/audio/vad.rs`), together with the
theorems settling the specification's testable properties.

Modelling conventions:
- `f32` samples and energies are modelled as exact rationals (buffer) or
  exact reals (detector, whose RMS needs a square root); machine-float
  rounding is idealized away.
- `usize` arithmetic is modelled as `Nat`; `Duration` as a rational number
  of seconds, with the `as usize` cast of `rate * seconds` modelled by
  `Nat.floor` (which also clamps negatives to zero, as the Rust cast does).
- The `Arc<Mutex<..>>`/atomics wrappers are dropped: each operation is a
  pure state transformer, matching the source's behaviour under the
  single-writer discipline the spec describes.
-/

namespace Vocatype

/-- State of `CircularBuffer` (buffer.rs).  `data` is the backing store
(`Vec<f32>`, length `capacity` in every reachable state), `write_pos` the
wrap-around write cursor, `size` the count of valid samples, `is_full` the
overwrite flag, `read_pos` an unused cursor kept for fidelity. -/
structure CircularBuffer where
  data : List ℚ
  write_pos : ℕ
  read_pos : ℕ
  capacity : ℕ
  size : ℕ
  is_full : Bool
  sample_rate : ℕ
  deriving DecidableEq, Repr

/-- `BufferStats` as returned by `CircularBuffer::get_stats`. -/
structure BufferStats where
  capacity : ℕ
  current_size : ℕ
  usage_percent : ℚ
  is_full : Bool
  duration_stored : ℚ
  write_position : ℕ
  read_position : ℕ
  deriving DecidableEq, Repr

namespace CircularBuffer

/-- `CircularBuffer::new`: capacity is `(sample_rate as f64 * duration) as usize`,
rejected when it rounds to zero (the source returns `Err`). -/
def new (sample_rate : ℕ) (duration : ℚ) : Option CircularBuffer :=
  let capacity := ⌊(sample_rate : ℚ) * duration⌋₊
  if capacity = 0 then none
  else some ⟨List.replicate capacity 0, 0, 0, capacity, 0, false, sample_rate⟩

/-- `data[pos..pos + xs.len()].copy_from_slice(xs)` on a `Vec` modelled as a list. -/
def setSlice (l : List ℚ) (pos : ℕ) (xs : List ℚ) : List ℚ :=
  l.take pos ++ xs ++ l.drop (pos + xs.length)

/-- `CircularBuffer::write_frame`.  Empty frames are a no-op returning 0;
otherwise at most `capacity` samples of the frame are copied, split in two
chunks when the write straddles the end of the store; the cursor advances
modulo `capacity` and `size`/`is_full` are updated exactly as in the source. -/
def write_frame (b : CircularBuffer) (frame : List ℚ) : CircularBuffer × ℕ :=
  if frame.isEmpty then (b, 0)
  else
    let n := min frame.length b.capacity
    let data' :=
      if b.write_pos + n ≤ b.capacity then
        setSlice b.data b.write_pos (frame.take n)
      else
        let first := b.capacity - b.write_pos
        setSlice (setSlice b.data b.write_pos (frame.take first)) 0
          ((frame.take n).drop first)
    let size' := if b.capacity ≤ b.size + n then b.capacity else b.size + n
    let full' := if b.capacity ≤ b.size + n then true else b.is_full
    ({ b with
        data := data'
        write_pos := (b.write_pos + n) % b.capacity
        size := size'
        is_full := full' }, n)

/-- `CircularBuffer::read_recent`: returns the last
`min(sample_rate * duration, size)` samples in chronological order,
re-assembled across the wrap boundary. -/
def read_recent (b : CircularBuffer) (duration : ℚ) : List ℚ :=
  let samples_needed := min ⌊(b.sample_rate : ℚ) * duration⌋₊ b.size
  if samples_needed = 0 then []
  else
    let read_start :=
      if samples_needed ≤ b.write_pos then b.write_pos - samples_needed
      else if b.is_full then b.capacity - (samples_needed - b.write_pos)
      else 0
    if read_start + samples_needed ≤ b.capacity then
      (b.data.drop read_start).take samples_needed
    else
      b.data.drop read_start ++ b.data.take (samples_needed - (b.capacity - read_start))

/-- `CircularBuffer::clear`: zero the store, reset cursors, count and flag. -/
def clear (b : CircularBuffer) : CircularBuffer :=
  { b with
      data := List.replicate b.capacity 0
      write_pos := 0
      read_pos := 0
      size := 0
      is_full := false }

/-- `CircularBuffer::has_sufficient_data`. -/
def has_sufficient_data (b : CircularBuffer) (min_duration : ℚ) : Bool :=
  ⌊(b.sample_rate : ℚ) * min_duration⌋₊ ≤ b.size

/-- `CircularBuffer::get_stats` (pure read; `duration_stored` uses exact
rational division, with the convention `x / 0 = 0` where the source would
produce a float infinity — no claim depends on that value). -/
def get_stats (b : CircularBuffer) : BufferStats :=
  { capacity := b.capacity
    current_size := b.size
    usage_percent := ((b.size : ℚ) / (b.capacity : ℚ)) * 100
    is_full := b.is_full
    duration_stored := (b.size : ℚ) / (b.sample_rate : ℚ)
    write_position := b.write_pos
    read_position := b.read_pos }

end CircularBuffer

/-- Buffer states reachable from `CircularBuffer::new` by any sequence of
`write_frame` and `clear` calls (`read_recent`, `has_sufficient_data` and
`get_stats` do not change the state). -/
inductive Reachable : CircularBuffer → Prop
  | new (sample_rate : ℕ) (duration : ℚ) (b : CircularBuffer) :
      CircularBuffer.new sample_rate duration = some b → Reachable b
  | write (b : CircularBuffer) (frame : List ℚ) :
      Reachable b → Reachable (b.write_frame frame).1
  | clear (b : CircularBuffer) : Reachable b → Reachable b.clear

/-- Sample stored at ring position `i` after writing the chronological
stream `s` into an empty ring of the given capacity: the most recent write
whose position is congruent to `i`, or the initial `0` if position `i` was
never written. -/
def ringVal (cap : ℕ) (s : List ℚ) (i : ℕ) : ℚ :=
  if i < s.length % cap then s.getD (s.length - s.length % cap + i) 0
  else s.getD (s.length - s.length % cap - cap + i) 0

/-- The buffer state corresponding to having written exactly the stream `s`
(concatenation of all truncated frames) since the last `new`/`clear`. -/
def StreamInv (b : CircularBuffer) (s : List ℚ) : Prop :=
  0 < b.capacity ∧
  b.data.length = b.capacity ∧
  b.write_pos = s.length % b.capacity ∧
  b.size = min s.length b.capacity ∧
  b.is_full = decide (b.capacity ≤ s.length) ∧
  ∀ i < b.capacity, b.data.getD i 0 = ringVal b.capacity s i

/-- Fold of `write_frame` over a list of frames (state component only). -/
def writeFrames (b : CircularBuffer) (fs : List (List ℚ)) : CircularBuffer :=
  fs.foldl (fun b f => (b.write_frame f).1) b

/-- The samples actually written by a sequence of frames: each frame
contributes its first `min (length, capacity)` samples. -/
def writtenOf (cap : ℕ) (fs : List (List ℚ)) : List ℚ :=
  (fs.map (fun f => f.take cap)).flatten

open CircularBuffer

/-- `WriteInBounds b frame` collects the arithmetic facts guaranteeing every
slice index computed by `write_frame` is inside the backing store and the
frame, so the source's `copy_from_slice` calls cannot panic. -/
def WriteInBounds (b : CircularBuffer) (frame : List ℚ) : Prop :=
  frame = [] ∨
    ((b.write_pos + min frame.length b.capacity ≤ b.capacity →
        b.write_pos + min frame.length b.capacity ≤ b.data.length) ∧
     (b.capacity < b.write_pos + min frame.length b.capacity →
        b.write_pos ≤ b.data.length ∧
        b.data.length - b.write_pos = b.capacity - b.write_pos ∧
        b.capacity - b.write_pos ≤ frame.length ∧
        b.capacity - b.write_pos ≤ min frame.length b.capacity ∧
        min frame.length b.capacity - (b.capacity - b.write_pos) ≤ b.data.length))

/-- `ReadInBounds b duration` collects the arithmetic facts guaranteeing the
read start position and both split-copy ranges computed by `read_recent` fit
inside the backing store, and the `usize` subtractions cannot underflow. -/
def ReadInBounds (b : CircularBuffer) (duration : ℚ) : Prop :=
  let n := min ⌊(b.sample_rate : ℚ) * duration⌋₊ b.size
  let rs := if n ≤ b.write_pos then b.write_pos - n
            else if b.is_full then b.capacity - (n - b.write_pos)
            else 0
  n = 0 ∨
    (rs ≤ b.data.length ∧ n - b.write_pos ≤ b.capacity ∧
     (rs + n ≤ b.capacity → rs + n ≤ b.data.length) ∧
     (b.capacity < rs + n → n - (b.capacity - rs) ≤ b.data.length ∧ b.capacity - rs ≤ n))

/-- Concrete buffer used by the witnesses: the result of `new 4 1`. -/
def bufW : CircularBuffer := ⟨List.replicate 4 0, 0, 0, 4, 0, false, 4⟩


/-! ### The voice activity detector (vad.rs), modelled over exact reals -/

noncomputable section

structure VADState where
  sample_rate : ℕ
  energy_threshold : ℝ
  noise_floor : ℝ
  frame_size : ℕ
  energy_window : List ℝ
  window_size : ℕ
  speech_history : List Bool
  min_speech_frames : ℕ
  min_silence_frames : ℕ
  is_speech : Bool
  noise_level : ℝ
  noise_alpha : ℝ
  total_frames : ℕ
  speech_frames : ℕ

structure VADResult where
  is_speech : Bool
  confidence : ℝ
  energy_level : ℝ

namespace VoiceActivityDetector

def new (sample_rate : ℕ) (energy_threshold : ℝ) (frame_duration : ℚ) :
    Option VADState :=
  let frame_size := ⌊(sample_rate : ℚ) * frame_duration⌋₊
  if frame_size = 0 then none
  else some
    { sample_rate := sample_rate
      energy_threshold := energy_threshold
      noise_floor := 1 / 100
      frame_size := frame_size
      energy_window := []
      window_size := 5
      speech_history := []
      min_speech_frames := 2
      min_silence_frames := 3
      is_speech := false
      noise_level := 1 / 100
      noise_alpha := 1 / 10
      total_frames := 0
      speech_frames := 0 }

def calculate_rms_energy (audio_data : List ℝ) : ℝ :=
  if audio_data = [] then 0
  else Real.sqrt ((audio_data.map (fun x => x * x)).sum / audio_data.length)

def pushWindow (w : List ℝ) (e : ℝ) (bound : ℕ) : List ℝ :=
  let w' := w ++ [e]
  if bound < w'.length then w'.tail else w'

def pushHistory (h : List Bool) (r : Bool) (bound : ℕ) : List Bool :=
  let h' := h ++ [r]
  if bound < h'.length then h'.tail else h'

def noiseUpdated (s : VADState) (e : ℝ) : ℝ :=
  if s.is_speech then s.noise_level
  else s.noise_level * (1 - s.noise_alpha) + e * s.noise_alpha

def windowAfter (s : VADState) (e : ℝ) : List ℝ :=
  pushWindow s.energy_window e s.window_size

def smoothedAt (s : VADState) (e : ℝ) : ℝ :=
  (windowAfter s e).sum / (windowAfter s e).length

def dynThresholdAt (s : VADState) (e : ℝ) : ℝ :=
  max (max (noiseUpdated s e * 2) s.energy_threshold) s.noise_floor

def rawSpeechAt (s : VADState) (e : ℝ) : Bool :=
  decide (dynThresholdAt s e < smoothedAt s e)

def determine_speech_state (h : List Bool) (cur : Bool) (sp sil : ℕ) : Bool :=
  if h.length < sp then cur
  else
    let recent_speech_count := ((h.take sp).filter (fun b => b)).length
    let recent_silence_count := ((h.take sil).filter (fun b => !b)).length
    if cur = false then decide (sp ≤ recent_speech_count)
    else !(decide (sil ≤ recent_silence_count))

def rawOf (s : VADState) (frame : List ℝ) : Bool :=
  rawSpeechAt s (calculate_rms_energy frame)

def process_frame (s : VADState) (frame : List ℝ) : VADResult × VADState :=
  if frame = [] then (⟨false, 0, 0⟩, s)
  else
    let e := calculate_rms_energy frame
    let sm := smoothedAt s e
    let dyn := dynThresholdAt s e
    let raw := rawSpeechAt s e
    let h' := pushHistory s.speech_history raw
      (max s.min_speech_frames s.min_silence_frames)
    let new_speech := determine_speech_state h' s.is_speech
      s.min_speech_frames s.min_silence_frames
    let confidence := if dyn < sm then min ((sm - dyn) / dyn) 1 else 0
    (⟨new_speech, confidence, sm⟩,
      { s with
          noise_level := noiseUpdated s e
          energy_window := windowAfter s e
          speech_history := h'
          is_speech := new_speech
          total_frames := s.total_frames + 1
          speech_frames := s.speech_frames + (if new_speech then 1 else 0) })

def process_frames (s : VADState) (fs : List (List ℝ)) : VADState :=
  fs.foldl (fun s f => (process_frame s f).2) s

end VoiceActivityDetector

open VoiceActivityDetector

def confidenceOf (s : VADState) (f : List ℝ) : ℝ :=
  if dynThresholdAt s (calculate_rms_energy f) < smoothedAt s (calculate_rms_energy f) then
    min ((smoothedAt s (calculate_rms_energy f) - dynThresholdAt s (calculate_rms_energy f))
        / dynThresholdAt s (calculate_rms_energy f)) 1
  else 0

def newSpeechOf (s : VADState) (f : List ℝ) : Bool :=
  determine_speech_state
    (pushHistory s.speech_history (rawOf s f) (max s.min_speech_frames s.min_silence_frames))
    s.is_speech s.min_speech_frames s.min_silence_frames

def LowRun : VADState → List (List ℝ) → Prop
  | _, [] => True
  | s, f :: fs => f ≠ [] ∧ rawOf s f = false ∧ LowRun (process_frame s f).2 fs

def vadInit : VADState :=
  { sample_rate := 16000
    energy_threshold := 1 / 2
    noise_floor := 1 / 100
    frame_size := 160
    energy_window := []
    window_size := 5
    speech_history := []
    min_speech_frames := 2
    min_silence_frames := 3
    is_speech := false
    noise_level := 1 / 100
    noise_alpha := 1 / 10
    total_frames := 0
    speech_frames := 0 }

def vadLoudHist : VADState :=
  { sample_rate := 16000
    energy_threshold := 1 / 2
    noise_floor := 1 / 100
    frame_size := 160
    energy_window := [1, 1, 1, 1]
    window_size := 5
    speech_history := [true, true, true]
    min_speech_frames := 2
    min_silence_frames := 3
    is_speech := true
    noise_level := 1 / 100
    noise_alpha := 1 / 10
    total_frames := 4
    speech_frames := 2 }

def vadMixedHist : VADState :=
  { sample_rate := 16000
    energy_threshold := 1 / 2
    noise_floor := 1 / 100
    frame_size := 160
    energy_window := []
    window_size := 5
    speech_history := [true, false, false]
    min_speech_frames := 2
    min_silence_frames := 3
    is_speech := true
    noise_level := 1 / 100
    noise_alpha := 1 / 10
    total_frames := 5
    speech_frames := 3 }

def vadSpeechW : VADState :=
  { sample_rate := 16000
    energy_threshold := 1 / 2
    noise_floor := 1 / 100
    frame_size := 160
    energy_window := []
    window_size := 5
    speech_history := [true, true]
    min_speech_frames := 2
    min_silence_frames := 3
    is_speech := true
    noise_level := 1 / 100
    noise_alpha := 1 / 10
    total_frames := 2
    speech_frames := 1 }

end


/-! ### List-access helper lemmas -/


theorem getD_append_left {s u : List ℚ} {j : ℕ} (h : j < s.length) :
    (s ++ u).getD j 0 = s.getD j 0 := by
  simp [List.getD_eq_getElem?_getD, List.getElem?_append_left h]

theorem getD_append_right {s u : List ℚ} {j : ℕ} (h : s.length ≤ j) :
    (s ++ u).getD j 0 = u.getD (j - s.length) 0 := by
  simp [List.getD_eq_getElem?_getD, List.getElem?_append_right h]

theorem getD_take {l : List ℚ} {k j : ℕ} (h : j < k) :
    (l.take k).getD j 0 = l.getD j 0 := by
  simp [List.getD_eq_getElem?_getD, List.getElem?_take, h]

theorem getD_drop (l : List ℚ) (k j : ℕ) :
    (l.drop k).getD j 0 = l.getD (k + j) 0 := by
  simp [List.getD_eq_getElem?_getD, List.getElem?_drop]

theorem add_mod_eq (t m cap : ℕ) : (t + m) % cap = (t % cap + m) % cap := by
  rw [Nat.add_mod t m, Nat.add_mod (t % cap) m, Nat.mod_mod_of_dvd t dvd_rfl]

/-- Linear facts about `t % cap` usable by `omega` (which cannot reason about
`%` with a variable modulus directly). -/

theorem mod_facts (cap t : ℕ) (hcap : 0 < cap) :
    t % cap < cap ∧ t % cap ≤ t ∧ (t % cap = t ∨ cap + t % cap ≤ t) := by
  refine ⟨Nat.mod_lt _ hcap, Nat.mod_le _ _, ?_⟩
  rcases Nat.lt_or_ge t cap with h | h
  · exact Or.inl (Nat.mod_eq_of_lt h)
  · right
    have h2 : t % cap = (t - cap) % cap := (Nat.mod_eq_sub_mod h).symm ▸ rfl
    have h3 : (t - cap) % cap ≤ t - cap := Nat.mod_le _ _
    omega

theorem list_eq_of_getD {l1 l2 : List ℚ} (hl : l1.length = l2.length)
    (hp : ∀ k < l1.length, l1.getD k 0 = l2.getD k 0) : l1 = l2 := by
  apply List.ext_getElem hl
  intro i h1 h2
  have hd := hp i h1
  rwa [List.getD_eq_getElem l1 0 h1, List.getD_eq_getElem l2 0 h2] at hd


/-! ### `setSlice` access lemmas (the modelled `copy_from_slice` ranges) -/

namespace CircularBuffer

theorem length_setSlice {l xs : List ℚ} {pos : ℕ} (h : pos + xs.length ≤ l.length) :
    (setSlice l pos xs).length = l.length := by
  simp [setSlice]
  omega

theorem getD_setSlice_lt {l xs : List ℚ} {pos i : ℕ} (h : pos + xs.length ≤ l.length)
    (hi : i < pos) : (setSlice l pos xs).getD i 0 = l.getD i 0 := by
  rw [setSlice, getD_append_left (by simp [List.length_take]; omega),
    getD_append_left (by simp [List.length_take]; omega), getD_take hi]

theorem getD_setSlice_mid {l xs : List ℚ} {pos i : ℕ} (h : pos + xs.length ≤ l.length)
    (h1 : pos ≤ i) (h2 : i < pos + xs.length) :
    (setSlice l pos xs).getD i 0 = xs.getD (i - pos) 0 := by
  rw [setSlice, getD_append_left (by simp [List.length_take]; omega),
    getD_append_right (by simp [List.length_take]; omega)]
  congr 1
  simp [List.length_take]
  omega

theorem getD_setSlice_ge {l xs : List ℚ} {pos i : ℕ} (h : pos + xs.length ≤ l.length)
    (h1 : pos + xs.length ≤ i) :
    (setSlice l pos xs).getD i 0 = l.getD i 0 := by
  rcases lt_or_le i l.length with hi | hi
  · rw [setSlice, getD_append_right (by simp [List.length_take]; omega), getD_drop]
    congr 1
    simp [List.length_take]
    omega
  · rw [List.getD_eq_default _ _ hi, List.getD_eq_default]
    rw [length_setSlice h]
    exact hi

end CircularBuffer

open CircularBuffer




/-! ### The ring invariant: update and read lemmas -/

theorem data_update_nowrap (cap : ℕ) (hcap : 0 < cap) (D s t1 : List ℚ)
    (hD : D.length = cap)
    (hpt : ∀ i < cap, D.getD i 0 = ringVal cap s i)
    (hm1 : 1 ≤ t1.length) (hm2 : t1.length ≤ cap)
    (hbr : s.length % cap + t1.length ≤ cap) :
    ∀ i < cap, (setSlice D (s.length % cap) t1).getD i 0 = ringVal cap (s ++ t1) i := by
  intro i hi
  obtain ⟨hr, hrt, hdich⟩ := mod_facts cap s.length hcap
  have hcond : s.length % cap + t1.length ≤ D.length := by omega
  have hlen' : (s ++ t1).length = s.length + t1.length := by simp
  rcases Nat.lt_or_ge (s.length % cap + t1.length) cap with hlt | hge
  · -- r' = r + m
    have hr' : (s.length + t1.length) % cap = s.length % cap + t1.length := by
      rw [add_mod_eq]
      exact Nat.mod_eq_of_lt hlt
    rw [ringVal, hlen', hr']
    rcases Nat.lt_or_ge i (s.length % cap) with hi1 | hi1
    · rw [getD_setSlice_lt hcond hi1, hpt i hi, ringVal, if_pos hi1,
        if_pos (by omega), getD_append_left (by omega)]
      congr 1
      omega
    · rcases Nat.lt_or_ge i (s.length % cap + t1.length) with hi2 | hi2
      · rw [getD_setSlice_mid hcond hi1 hi2, if_pos hi2,
          getD_append_right (by omega)]
        congr 1
        omega
      · rw [getD_setSlice_ge hcond hi2, hpt i hi, ringVal, if_neg (by omega),
          if_neg (by omega)]
        rcases Nat.lt_or_ge (s.length - s.length % cap - cap + i) s.length with hj | hj
        · rw [getD_append_left (by omega)]
          congr 1
          omega
        · rw [List.getD_eq_default _ _ (by omega), List.getD_eq_default _ _ (by omega)]
  · -- r + m = cap, r' = 0
    have heq : s.length % cap + t1.length = cap := by omega
    have hr' : (s.length + t1.length) % cap = 0 := by
      rw [add_mod_eq, heq, Nat.mod_self]
    rw [ringVal, hlen', hr']
    rw [if_neg (Nat.not_lt_zero i)]
    rcases Nat.lt_or_ge i (s.length % cap) with hi1 | hi1
    · rw [getD_setSlice_lt hcond hi1, hpt i hi, ringVal, if_pos hi1,
        getD_append_left (by omega)]
      congr 1
      omega
    · rw [getD_setSlice_mid hcond hi1 (by omega), getD_append_right (by omega)]
      congr 1
      omega

theorem data_update_wrap (cap : ℕ) (hcap : 0 < cap) (D s t1 : List ℚ)
    (hD : D.length = cap)
    (hpt : ∀ i < cap, D.getD i 0 = ringVal cap s i)
    (hm1 : 1 ≤ t1.length) (hm2 : t1.length ≤ cap)
    (hbr : cap < s.length % cap + t1.length) :
    ∀ i < cap,
      (setSlice (setSlice D (s.length % cap) (t1.take (cap - s.length % cap))) 0
        (t1.drop (cap - s.length % cap))).getD i 0 = ringVal cap (s ++ t1) i := by
  intro i hi
  obtain ⟨hr, hrt, hdich⟩ := mod_facts cap s.length hcap
  have hlen' : (s ++ t1).length = s.length + t1.length := by simp
  have hlen1 : (t1.take (cap - s.length % cap)).length = cap - s.length % cap := by
    simp [List.length_take]
    omega
  have hlen2 : (t1.drop (cap - s.length % cap)).length
      = s.length % cap + t1.length - cap := by
    simp [List.length_drop]
    omega
  have hcond1 : s.length % cap + (t1.take (cap - s.length % cap)).length ≤ D.length := by
    omega
  have hS1 : (setSlice D (s.length % cap) (t1.take (cap - s.length % cap))).length = cap := by
    rw [length_setSlice hcond1, hD]
  have hcond2 : 0 + (t1.drop (cap - s.length % cap)).length
      ≤ (setSlice D (s.length % cap) (t1.take (cap - s.length % cap))).length := by
    omega
  have hr' : (s.length + t1.length) % cap = s.length % cap + t1.length - cap := by
    rw [add_mod_eq, Nat.mod_eq_sub_mod (by omega)]
    exact Nat.mod_eq_of_lt (by omega)
  rw [ringVal, hlen', hr']
  rcases Nat.lt_or_ge i (s.length % cap + t1.length - cap) with hi1 | hi1
  · -- second chunk region
    rw [getD_setSlice_mid hcond2 (Nat.zero_le i) (by omega), if_pos hi1]
    rw [Nat.sub_zero, getD_drop, getD_append_right (by omega)]
    congr 1
    omega
  · rw [getD_setSlice_ge hcond2 (by omega), if_neg (by omega)]
    rcases Nat.lt_or_ge i (s.length % cap) with hi2 | hi2
    · rw [getD_setSlice_lt hcond1 hi2, hpt i hi, ringVal, if_pos hi2,
        getD_append_left (by omega)]
      congr 1
      omega
    · rw [getD_setSlice_mid hcond1 hi2 (by omega), getD_take (by omega),
        getD_append_right (by omega)]
      congr 1
      omega

theorem isEmpty_false_of_ne {f : List ℚ} (hf : f ≠ []) : f.isEmpty = false := by
  cases f with
  | nil => exact absurd rfl hf
  | cons a l => rfl

theorem take_min_eq (f : List ℚ) (cap : ℕ) :
    f.take (min f.length cap) = f.take cap := by
  rcases Nat.le_total f.length cap with h | h
  · rw [min_eq_left h, List.take_length, List.take_of_length_le h]
  · rw [min_eq_right h]

theorem write_frame_streamInv {b : CircularBuffer} {s : List ℚ} (f : List ℚ)
    (h : StreamInv b s) : StreamInv (b.write_frame f).1 (s ++ f.take b.capacity) := by
  obtain ⟨hcap, hlen, hwp, hsize, hfull, hpt⟩ := h
  rcases eq_or_ne f [] with hf | hf
  · subst hf
    have h1 : (b.write_frame ([] : List ℚ)).1 = b := rfl
    have h2 : s ++ ([] : List ℚ).take b.capacity = s := by simp
    rw [h1, h2]
    exact ⟨hcap, hlen, hwp, hsize, hfull, hpt⟩
  · have hfe : f.isEmpty = false := isEmpty_false_of_ne hf
    have hf1 : 1 ≤ f.length := by
      cases f with
      | nil => exact absurd rfl hf
      | cons a l => simp
    have hmlen : (f.take b.capacity).length = min f.length b.capacity := by
      rw [List.length_take, min_comm]
    have hm1 : 1 ≤ (f.take b.capacity).length := by omega
    have hm2 : (f.take b.capacity).length ≤ b.capacity := by omega
    have ht1 : f.take (min f.length b.capacity) = f.take b.capacity :=
      take_min_eq f b.capacity
    have hslen : (s ++ f.take b.capacity).length
        = s.length + (f.take b.capacity).length := by simp
    simp only [write_frame, hfe, Bool.false_eq_true, if_false]
    refine ⟨hcap, ?_, ?_, ?_, ?_, ?_⟩
    · -- length of the updated store
      obtain ⟨hrlt, hrle, -⟩ := mod_facts b.capacity s.length hcap
      simp only
      split
      · rename_i hbr
        rw [ht1, length_setSlice (by omega), hlen]
      · rename_i hbr
        have e1 : (f.take (b.capacity - b.write_pos)).length
            = b.capacity - b.write_pos := by
          rw [List.length_take]
          omega
        have e2 : (setSlice b.data b.write_pos
            (f.take (b.capacity - b.write_pos))).length = b.capacity := by
          rw [length_setSlice (by rw [e1, hlen]; omega), hlen]
        rw [length_setSlice, e2]
        rw [e2]
        simp only [List.length_drop, ht1, hmlen]
        omega
    · -- write_pos
      simp only [hslen, hwp, hmlen]
      rw [add_mod_eq s.length]
    · -- size
      simp only [hslen, hmlen, hsize]
      split <;> omega
    · -- is_full
      simp only [hslen, hmlen, hsize]
      split
      · rename_i hbr
        exact (decide_eq_true (by omega)).symm
      · rename_i hbr
        rw [hfull, decide_eq_decide]
        omega
    · -- pointwise data
      split
      · rename_i hbr
        intro i hi
        rw [ht1]
        have hres := data_update_nowrap b.capacity hcap b.data s (f.take b.capacity)
          hlen hpt hm1 hm2 (by rw [← hwp]; omega) i hi
        rw [← hwp] at hres
        exact hres
      · rename_i hbr
        intro i hi
        have hfirst : f.take (b.capacity - b.write_pos)
            = (f.take b.capacity).take (b.capacity - b.write_pos) := by
          rw [List.take_take, min_eq_left (by omega)]
        have hdrop : (f.take (min f.length b.capacity)).drop (b.capacity - b.write_pos)
            = (f.take b.capacity).drop (b.capacity - b.write_pos) := by rw [ht1]
        rw [hfirst, hdrop]
        have hres := data_update_wrap b.capacity hcap b.data s (f.take b.capacity)
          hlen hpt hm1 hm2 (by rw [← hwp]; omega) i hi
        rw [← hwp] at hres
        exact hres

theorem read_recent_streamInv {b : CircularBuffer} {s : List ℚ} (h : StreamInv b s) (d : ℚ) :
    b.read_recent d = s.drop (s.length - min ⌊(b.sample_rate : ℚ) * d⌋₊ b.size) := by
  obtain ⟨hcap, hlen, hwp, hsize, hfull, hpt⟩ := h
  obtain ⟨hrlt, hrle, hdich⟩ := mod_facts b.capacity s.length hcap
  rw [read_recent]
  set N := min ⌊(b.sample_rate : ℚ) * d⌋₊ b.size with hN
  have hNsize : N ≤ b.size := min_le_right _ _
  have hNt : N ≤ s.length := by omega
  have hNcap : N ≤ b.capacity := by omega
  have hRlen : (s.drop (s.length - N)).length = N := by
    rw [List.length_drop]
    omega
  rcases eq_or_ne N 0 with h0 | h0
  · rw [if_pos h0, h0, Nat.sub_zero, List.drop_length]
  · rw [if_neg h0]
    rcases le_or_lt N b.write_pos with hc1 | hc1
    · -- enough history before the cursor: contiguous copy
      have hrs : (if N ≤ b.write_pos then b.write_pos - N
          else if b.is_full then b.capacity - (N - b.write_pos) else 0)
          = b.write_pos - N := if_pos hc1
      rw [hrs, if_pos (by omega)]
      apply list_eq_of_getD
      · rw [List.length_take, List.length_drop, hlen, hRlen]
        omega
      · intro k hk
        rw [List.length_take, List.length_drop, hlen] at hk
        have hkN : k < N := by omega
        rw [getD_take hkN, getD_drop, hpt _ (by omega), ringVal, if_pos (by omega),
          getD_drop]
        congr 1
        omega
    · have hrs : (if N ≤ b.write_pos then b.write_pos - N
          else if b.is_full then b.capacity - (N - b.write_pos) else 0)
          = if b.is_full then b.capacity - (N - b.write_pos) else 0 := if_neg (by omega)
      rw [hrs]
      cases hfl : b.is_full with
      | false =>
        -- not-full state: the cursor equals the stream length, so this case is impossible
        exfalso
        rw [hfl] at hfull
        have hlt : ¬ (b.capacity ≤ s.length) := of_decide_eq_false hfull.symm
        rcases hdich with hcase | hcase <;> omega
      | true =>
        rw [if_pos rfl]
        rw [hfl] at hfull
        have hct : b.capacity ≤ s.length := of_decide_eq_true hfull.symm
        rcases Nat.eq_zero_or_pos (s.length % b.capacity) with hr0 | hr0
        · -- cursor at 0: contiguous copy from the tail of the store
          rw [if_pos (by omega)]
          apply list_eq_of_getD
          · rw [List.length_take, List.length_drop, hlen, hRlen]
            omega
          · intro k hk
            rw [List.length_take, List.length_drop, hlen] at hk
            have hkN : k < N := by omega
            rw [getD_take hkN, getD_drop, hpt _ (by omega), ringVal, if_neg (by omega),
              getD_drop]
            congr 1
            omega
        · -- genuine wrap-around read
          rw [if_neg (by omega)]
          apply list_eq_of_getD
          · rw [List.length_append, List.length_drop, List.length_take, hlen, hRlen]
            omega
          · intro k hk
            rw [List.length_append, List.length_drop, List.length_take, hlen] at hk
            have hkN : k < N := by omega
            rcases lt_or_le k (N - b.write_pos) with hk1 | hk1
            · rw [getD_append_left (by rw [List.length_drop, hlen]; omega), getD_drop,
                hpt _ (by omega), ringVal, if_neg (by omega), getD_drop]
              congr 1
              omega
            · rw [getD_append_right (by rw [List.length_drop, hlen]; omega),
                List.length_drop, hlen, getD_take (by omega), hpt _ (by omega), ringVal,
                if_pos (by omega), getD_drop]
              congr 1
              omega

theorem getD_replicate_zero (cap i : ℕ) : (List.replicate cap (0:ℚ)).getD i 0 = 0 := by
  rw [List.getD_eq_getElem?_getD, List.getElem?_replicate]
  split <;> rfl

theorem ringVal_nil (cap i : ℕ) : ringVal cap [] i = 0 := by
  rw [ringVal]
  simp

theorem new_streamInv {rate : ℕ} {dur : ℚ} {b : CircularBuffer}
    (h : CircularBuffer.new rate dur = some b) : StreamInv b [] := by
  rw [CircularBuffer.new] at h
  split at h
  · exact absurd h (by simp)
  · rename_i hc
    cases h
    refine ⟨Nat.pos_of_ne_zero hc, by simp, by simp, by simp, ?_, ?_⟩
    · rw [eq_comm, decide_eq_false_iff_not]
      simp only [List.length_nil]
      omega
    · intro i hi
      rw [ringVal_nil]
      exact getD_replicate_zero _ _

theorem clear_streamInv (b : CircularBuffer) (hcap : 0 < b.capacity) :
    StreamInv b.clear [] := by
  refine ⟨hcap, by simp [clear], by simp [clear], by simp [clear], ?_, ?_⟩
  · simp only [clear, List.length_nil]
    rw [eq_comm, decide_eq_false_iff_not]
    omega
  · intro i hi
    rw [ringVal_nil]
    exact getD_replicate_zero _ _

theorem reachable_inv {b : CircularBuffer} (h : Reachable b) : ∃ s, StreamInv b s := by
  induction h with
  | new rate dur b hb => exact ⟨[], new_streamInv hb⟩
  | write b f hb ih =>
    obtain ⟨s, hs⟩ := ih
    exact ⟨s ++ f.take b.capacity, write_frame_streamInv f hs⟩
  | clear b hb ih =>
    obtain ⟨s, hs⟩ := ih
    exact ⟨[], clear_streamInv b hs.1⟩

theorem capacity_write_frame (b : CircularBuffer) (f : List ℚ) :
    (b.write_frame f).1.capacity = b.capacity := by
  rw [write_frame]
  split <;> rfl

theorem sample_rate_write_frame (b : CircularBuffer) (f : List ℚ) :
    (b.write_frame f).1.sample_rate = b.sample_rate := by
  rw [write_frame]
  split <;> rfl

theorem writeFrames_streamInv {b : CircularBuffer} {s : List ℚ} (fs : List (List ℚ))
    (h : StreamInv b s) :
    StreamInv (writeFrames b fs) (s ++ writtenOf b.capacity fs) := by
  induction fs generalizing b s with
  | nil => simpa [writeFrames, writtenOf] using h
  | cons f fs ih =>
    have hstep := write_frame_streamInv f h
    have hcap := capacity_write_frame b f
    have h2 := ih (b := (b.write_frame f).1) (s := s ++ f.take b.capacity) hstep
    rw [hcap] at h2
    have : s ++ f.take b.capacity ++ writtenOf b.capacity fs
        = s ++ writtenOf b.capacity (f :: fs) := by
      rw [writtenOf, writtenOf, List.map_cons, List.flatten_cons, List.append_assoc]
    rw [this] at h2
    have hw : writeFrames b (f :: fs) = writeFrames (b.write_frame f).1 fs := rfl
    rw [hw]
    exact h2

theorem capacity_writeFrames (b : CircularBuffer) (fs : List (List ℚ)) :
    (writeFrames b fs).capacity = b.capacity := by
  induction fs generalizing b with
  | nil => rfl
  | cons f fs ih =>
    have : writeFrames b (f :: fs) = writeFrames (b.write_frame f).1 fs := rfl
    rw [this, ih, capacity_write_frame]

theorem sample_rate_writeFrames (b : CircularBuffer) (fs : List (List ℚ)) :
    (writeFrames b fs).sample_rate = b.sample_rate := by
  induction fs generalizing b with
  | nil => rfl
  | cons f fs ih =>
    have : writeFrames b (f :: fs) = writeFrames (b.write_frame f).1 fs := rfl
    rw [this, ih, sample_rate_write_frame]

theorem new_fields {rate : ℕ} {dur : ℚ} {b : CircularBuffer}
    (h : CircularBuffer.new rate dur = some b) :
    b.sample_rate = rate ∧ b.capacity = ⌊(rate : ℚ) * dur⌋₊ := by
  rw [CircularBuffer.new] at h
  split at h
  · exact absurd h (by simp)
  · cases h
    exact ⟨rfl, rfl⟩


/-! ### Witness fixtures -/


theorem bufW_new : CircularBuffer.new 4 1 = some bufW := by
  rw [CircularBuffer.new, bufW]
  norm_num

theorem bufW_reach : Reachable bufW := Reachable.new 4 1 _ bufW_new

theorem bufWFull_reach : Reachable (bufW.write_frame [1, 1, 1, 1]).1 :=
  Reachable.write _ _ bufW_reach


/-! ### Claims about the circular buffer -/

/-- C1: for every sequence of `write_frame` calls on a buffer created by
`new` whose total written sample count reaches (in particular, exceeds) the
capacity, a `read_recent` whose window covers the whole buffer returns
exactly the last `capacity` samples written, in chronological order. -/
theorem c1_wrap_correctness {rate : ℕ} {dur : ℚ} {b : CircularBuffer}
    (fs : List (List ℚ)) (d : ℚ)
    (hnew : CircularBuffer.new rate dur = some b)
    (htotal : b.capacity ≤ (writtenOf b.capacity fs).length)
    (hd : b.capacity ≤ ⌊(rate : ℚ) * d⌋₊) :
    (writeFrames b fs).read_recent d
      = (writtenOf b.capacity fs).drop ((writtenOf b.capacity fs).length - b.capacity) := by
  have hinv := writeFrames_streamInv fs (new_streamInv hnew)
  rw [List.nil_append] at hinv
  rw [read_recent_streamInv hinv]
  obtain ⟨hsr, hcapeq⟩ := new_fields hnew
  have h1 : (writeFrames b fs).sample_rate = rate := by
    rw [sample_rate_writeFrames, hsr]
  have h2 : (writeFrames b fs).capacity = b.capacity := capacity_writeFrames b fs
  have h3 : (writeFrames b fs).size
      = min (writtenOf b.capacity fs).length (writeFrames b fs).capacity :=
    hinv.2.2.2.1
  rw [h2] at h3
  rw [h1, h3]
  congr 1
  omega

/-- C6: for every reachable buffer state and duration `d`, `read_recent d`
returns exactly `min (⌊sample_rate * d⌋, size)` samples, and in particular
never more samples than are currently stored. -/
theorem c6_read_windowing {b : CircularBuffer} (h : Reachable b) (d : ℚ) :
    (b.read_recent d).length = min ⌊(b.sample_rate : ℚ) * d⌋₊ b.size ∧
    (b.read_recent d).length ≤ b.size := by
  obtain ⟨s, inv⟩ := reachable_inv h
  rw [read_recent_streamInv inv, List.length_drop]
  have hsize := inv.2.2.2.1
  constructor <;> omega

/-- C7 (amended): immediately after `clear`, `read_recent` returns the empty
list for every duration, and `has_sufficient_data d` is `false` for every
duration worth at least one sample (`1 ≤ ⌊sample_rate * d⌋`).  The original
claim (`false` for every strictly positive duration) fails for sub-sample
durations, see the counterexample. -/
theorem c7_clear_resets (b : CircularBuffer) (d : ℚ) :
    b.clear.read_recent d = [] ∧
    (1 ≤ ⌊(b.sample_rate : ℚ) * d⌋₊ → b.clear.has_sufficient_data d = false) := by
  constructor
  · rw [read_recent]
    simp [clear]
  · intro hd
    rw [has_sufficient_data]
    simp only [clear]
    rw [decide_eq_false_iff_not]
    omega

/-- C7 counterexample: after `clear`, `has_sufficient_data (1/8)` returns
`true` on a rate-4 buffer even though `1/8 > 0`, because
`⌊4 * (1/8)⌋ = 0 ≤ 0 = size`; so "has_sufficient_data returns false for
every strictly positive duration" is false as stated. -/
theorem c7_counterexample :
    (0 : ℚ) < 1/8 ∧
    ((⟨List.replicate 4 0, 0, 0, 4, 0, false, 4⟩ : CircularBuffer).clear.has_sufficient_data
      (1/8)) = true := by
  refine ⟨by norm_num, ?_⟩
  rw [has_sufficient_data, decide_eq_true_eq]
  simp only [clear]
  norm_num

/-- C8: every buffer operation preserves `size ≤ capacity` (reads are pure
and do not change the state at all in this model), and once the full flag is
set, `size` equals `capacity` and every subsequent `write_frame` keeps it
there. -/
theorem c8_count_invariant {b : CircularBuffer} (h : Reachable b) (f : List ℚ) :
    b.size ≤ b.capacity ∧
    (b.write_frame f).1.size ≤ (b.write_frame f).1.capacity ∧
    b.clear.size ≤ b.clear.capacity ∧
    (b.is_full = true → b.size = b.capacity ∧ (b.write_frame f).1.size = b.capacity) := by
  obtain ⟨s, inv⟩ := reachable_inv h
  have inv' := write_frame_streamInv f inv
  have hcapw := capacity_write_frame b f
  have h1 := inv.2.2.2.1
  have h1' := inv'.2.2.2.1
  have hful := inv.2.2.2.2.1
  rw [hcapw, List.length_append] at h1'
  refine ⟨by omega, by omega, by simp [clear], ?_⟩
  intro hf
  rw [hf] at hful
  have hct : b.capacity ≤ s.length := of_decide_eq_true hful.symm
  exact ⟨by omega, by omega⟩

/-- C10: in every reachable buffer state, all slice-index arithmetic of
`write_frame` and `read_recent` stays inside the backing store, for every
frame and duration. -/
theorem c10_slice_safety {b : CircularBuffer} (h : Reachable b) (f : List ℚ) (d : ℚ) :
    WriteInBounds b f ∧ ReadInBounds b d := by
  obtain ⟨s, inv⟩ := reachable_inv h
  obtain ⟨hcap, hlen, hwp, hsize, hfull, -⟩ := inv
  obtain ⟨hrlt, hrle, hdich⟩ := mod_facts b.capacity s.length hcap
  constructor
  · exact Or.inr (by constructor <;> (intro h1; omega))
  · simp only [ReadInBounds]
    rcases le_or_lt (min ⌊(b.sample_rate : ℚ) * d⌋₊ b.size) b.write_pos with hc | hc
    · rw [if_pos hc]
      right
      omega
    · cases hfl : b.is_full with
      | false =>
        rw [if_neg (by omega), if_neg (by simp)]
        right
        omega
      | true =>
        rw [if_neg (by omega), if_pos rfl]
        right
        omega


/-! ### Buffer claim witnesses -/

theorem c1_witness :
    CircularBuffer.new 4 1 = some ⟨List.replicate 4 0, 0, 0, 4, 0, false, 4⟩ ∧
    (4 : ℕ) ≤ (writtenOf 4 [[1, 2, 3, 4], [5, 6]]).length ∧
    (4 : ℕ) ≤ ⌊((4 : ℕ) : ℚ) * (1 : ℚ)⌋₊ ∧
    (writeFrames ⟨List.replicate 4 0, 0, 0, 4, 0, false, 4⟩ [[1, 2, 3, 4], [5, 6]]).read_recent 1
      = (writtenOf 4 [[1, 2, 3, 4], [5, 6]]).drop
          ((writtenOf 4 [[1, 2, 3, 4], [5, 6]]).length - 4) := by
  have hnew : CircularBuffer.new 4 1 = some ⟨List.replicate 4 0, 0, 0, 4, 0, false, 4⟩ := by
    rw [CircularBuffer.new]
    norm_num
  have htot : (4 : ℕ) ≤ (writtenOf 4 [[1, 2, 3, 4], [5, 6]]).length := by
    simp [writtenOf]
  have hd : (4 : ℕ) ≤ ⌊((4 : ℕ) : ℚ) * (1 : ℚ)⌋₊ := by norm_num
  exact ⟨hnew, htot, hd, c1_wrap_correctness _ _ hnew htot hd⟩

theorem c6_witness :
    ((bufW.read_recent 1).length = min ⌊(bufW.sample_rate : ℚ) * 1⌋₊ bufW.size ∧
     (bufW.read_recent 1).length ≤ bufW.size) :=
  c6_read_windowing bufW_reach 1

theorem c7_witness :
    bufW.clear.read_recent 1 = [] ∧
    1 ≤ ⌊(bufW.sample_rate : ℚ) * 1⌋₊ ∧
    bufW.clear.has_sufficient_data 1 = false :=
  ⟨(c7_clear_resets bufW 1).1, by rw [bufW]; norm_num,
    (c7_clear_resets bufW 1).2 (by rw [bufW]; norm_num)⟩

theorem c8_witness :
    (bufW.write_frame [1, 1, 1, 1]).1.is_full = true ∧
    ((bufW.write_frame [1, 1, 1, 1]).1.size ≤ (bufW.write_frame [1, 1, 1, 1]).1.capacity ∧
     ((bufW.write_frame [1, 1, 1, 1]).1.write_frame [7]).1.size
        ≤ ((bufW.write_frame [1, 1, 1, 1]).1.write_frame [7]).1.capacity ∧
     (bufW.write_frame [1, 1, 1, 1]).1.clear.size
        ≤ (bufW.write_frame [1, 1, 1, 1]).1.clear.capacity ∧
     ((bufW.write_frame [1, 1, 1, 1]).1.is_full = true →
       (bufW.write_frame [1, 1, 1, 1]).1.size = (bufW.write_frame [1, 1, 1, 1]).1.capacity ∧
       ((bufW.write_frame [1, 1, 1, 1]).1.write_frame [7]).1.size
          = (bufW.write_frame [1, 1, 1, 1]).1.capacity)) :=
  ⟨by decide, c8_count_invariant bufWFull_reach [7]⟩

theorem c10_witness :
    WriteInBounds (bufW.write_frame [1, 1, 1, 1]).1 [1, 2, 3] ∧
    ReadInBounds (bufW.write_frame [1, 1, 1, 1]).1 (1 / 2) :=
  c10_slice_safety bufWFull_reach [1, 2, 3] (1 / 2)


/-! ### Detector lemmas -/

open VoiceActivityDetector

theorem rms_single_one : calculate_rms_energy [1] = 1 := by
  rw [calculate_rms_energy]
  norm_num

theorem rms_single_zero : calculate_rms_energy [0] = 0 := by
  rw [calculate_rms_energy]
  norm_num

theorem rms_replicate_zero (k : ℕ) :
    calculate_rms_energy (List.replicate k (0 : ℝ)) = 0 := by
  rcases Nat.eq_zero_or_pos k with hk | hk
  · subst hk
    rfl
  · rw [calculate_rms_energy, if_neg (by simp; omega)]
    have h1 : (List.replicate k (0 : ℝ)).map (fun x => x * x) = List.replicate k 0 := by
      simp
    rw [h1]
    simp

theorem vadInit_new : VoiceActivityDetector.new 16000 (1 / 2) (1 / 100) = some vadInit := by
  rw [VoiceActivityDetector.new, vadInit]
  norm_num

theorem raw_init_one : rawOf vadInit [1] = true := by
  rw [rawOf, rms_single_one, rawSpeechAt, decide_eq_true_eq, dynThresholdAt, smoothedAt,
    windowAfter, noiseUpdated, pushWindow, vadInit]
  norm_num [max_lt_iff]

theorem step1 : (process_frame vadInit [1]).2 =
    { sample_rate := 16000
      energy_threshold := 1 / 2
      noise_floor := 1 / 100
      frame_size := 160
      energy_window := [1]
      window_size := 5
      speech_history := [true]
      min_speech_frames := 2
      min_silence_frames := 3
      is_speech := false
      noise_level := 109 / 1000
      noise_alpha := 1 / 10
      total_frames := 1
      speech_frames := 0 } := by
  rw [process_frame, if_neg (by simp)]
  simp only [rms_single_one]
  rw [vadInit]
  simp only [noiseUpdated, windowAfter, pushWindow, pushHistory, rawSpeechAt,
    dynThresholdAt, smoothedAt, determine_speech_state]
  norm_num

theorem process_frame_eq (s : VADState) (f : List ℝ) (hf : f ≠ []) :
    process_frame s f =
      (⟨newSpeechOf s f, confidenceOf s f, smoothedAt s (calculate_rms_energy f)⟩,
       { s with
           noise_level := noiseUpdated s (calculate_rms_energy f)
           energy_window := windowAfter s (calculate_rms_energy f)
           speech_history := pushHistory s.speech_history (rawOf s f)
             (max s.min_speech_frames s.min_silence_frames)
           is_speech := newSpeechOf s f
           total_frames := s.total_frames + 1
           speech_frames := s.speech_frames + (if newSpeechOf s f then 1 else 0) }) := by
  rw [process_frame, if_neg hf]
  rfl

theorem pushHistory_no_drop (h : List Bool) (r : Bool) (bound : ℕ)
    (hb : h.length + 1 ≤ bound) : pushHistory h r bound = h ++ [r] := by
  rw [pushHistory]
  simp only [List.length_append, List.length_singleton]
  rw [if_neg (by omega)]

theorem pushHistory_drop (h : List Bool) (r : Bool) (bound : ℕ)
    (hb : bound ≤ h.length) : pushHistory h r bound = (h ++ [r]).tail := by
  rw [pushHistory]
  simp only [List.length_append, List.length_singleton]
  rw [if_pos (by omega)]

theorem pushWindow_no_drop (w : List ℝ) (e : ℝ) (bound : ℕ)
    (hb : w.length + 1 ≤ bound) : pushWindow w e bound = w ++ [e] := by
  rw [pushWindow]
  simp only [List.length_append, List.length_singleton]
  rw [if_neg (by omega)]

theorem min_sp_pf (s : VADState) (f : List ℝ) :
    (process_frame s f).2.min_speech_frames = s.min_speech_frames := by
  rw [process_frame]
  split <;> rfl

theorem min_sil_pf (s : VADState) (f : List ℝ) :
    (process_frame s f).2.min_silence_frames = s.min_silence_frames := by
  rw [process_frame]
  split <;> rfl

theorem filter_id_TF (a c : ℕ) :
    (((List.replicate a true ++ List.replicate c false)).filter (fun b => b)).length = a := by
  induction a with
  | zero =>
    induction c with
    | zero => rfl
    | succ c ih => simpa [List.replicate_succ] using ih
  | succ a ih => simpa [List.replicate_succ] using ih

theorem filter_not_TF (a c : ℕ) :
    (((List.replicate a true ++ List.replicate c false)).filter (fun b => !b)).length = c := by
  induction a with
  | zero =>
    induction c with
    | zero => rfl
    | succ c ih => simpa [List.replicate_succ] using ih
  | succ a ih => simpa [List.replicate_succ] using ih

theorem determine_all_false (sil sp : ℕ) (cur : Bool) (hsp : 1 ≤ sp) (hsps : sp ≤ sil) :
    determine_speech_state (List.replicate sil false) cur sp sil = false := by
  rw [determine_speech_state]
  simp only [List.length_replicate]
  rw [if_neg (by omega)]
  have h1 : ((List.replicate sil false).take sp).filter (fun b => b) = [] := by
    have hts : (List.replicate sil false).take sp = List.replicate (min sp sil) false :=
      List.take_replicate _ _ _
    rw [hts]
    have := filter_id_TF 0 (min sp sil)
    simp only [List.replicate, List.nil_append] at this
    rwa [List.length_eq_zero] at this
  have h2 : (((List.replicate sil false).take sil).filter (fun b => !b)).length = sil := by
    rw [List.take_of_length_le (by simp)]
    have := filter_not_TF 0 sil
    simpa using this
  rcases cur with - | -
  · rw [if_pos rfl]
    rw [h1]
    simp only [List.length_nil]
    rw [decide_eq_false_iff_not]
    omega
  · rw [if_neg (by simp)]
    rw [h2]
    simp

theorem low_step_hist (s : VADState) (f : List ℝ) (X : List Bool) (c : ℕ)
    (hf : f ≠ []) (hraw : rawOf s f = false)
    (hh : s.speech_history = X ++ List.replicate c false)
    (hsps : s.min_speech_frames ≤ s.min_silence_frames)
    (hbound : X.length + c ≤ s.min_silence_frames)
    (hclt : c + 1 ≤ s.min_silence_frames) :
    ∃ X', (process_frame s f).2.speech_history
        = X' ++ List.replicate (c + 1) false ∧
      X'.length + (c + 1) ≤ s.min_silence_frames ∧
      (X' = X ∨ X' = X.tail) ∧
      (process_frame s f).2.is_speech
        = determine_speech_state (X' ++ List.replicate (c + 1) false) s.is_speech
            s.min_speech_frames s.min_silence_frames := by
  have hmaxeq : max s.min_speech_frames s.min_silence_frames = s.min_silence_frames :=
    max_eq_right hsps
  have hlenh : s.speech_history.length = X.length + c := by
    rw [hh]
    simp
  have happ : ∀ Y : List Bool,
      (Y ++ List.replicate c false) ++ [false] = Y ++ List.replicate (c + 1) false := by
    intro Y
    rw [List.append_assoc]
    congr 1
    exact (List.replicate_succ' c false).symm
  rcases Nat.lt_or_ge (X.length + c) s.min_silence_frames with hlt | hge
  · refine ⟨X, ?_, by omega, Or.inl rfl, ?_⟩
    · rw [process_frame_eq s f hf]
      dsimp only
      rw [hraw, pushHistory_no_drop _ _ _ (by rw [hlenh, hmaxeq]; omega), hh, happ]
    · rw [process_frame_eq s f hf]
      dsimp only
      rw [newSpeechOf, hraw, pushHistory_no_drop _ _ _ (by rw [hlenh, hmaxeq]; omega),
        hh, happ]
  · have hX1 : 1 ≤ X.length := by omega
    have htail : (X ++ List.replicate (c + 1) false).tail
        = X.tail ++ List.replicate (c + 1) false := by
      rcases X with - | ⟨x, X⟩
      · simp at hX1
      · simp
    refine ⟨X.tail, ?_, by rw [List.length_tail]; omega, Or.inr rfl, ?_⟩
    · rw [process_frame_eq s f hf]
      dsimp only
      rw [hraw, pushHistory_drop _ _ _ (by rw [hlenh, hmaxeq]; omega), hh, happ, htail]
    · rw [process_frame_eq s f hf]
      dsimp only
      rw [newSpeechOf, hraw, pushHistory_drop _ _ _ (by rw [hlenh, hmaxeq]; omega),
        hh, happ, htail]

theorem silence_run (fs : List (List ℝ)) : ∀ (s : VADState) (X : List Bool) (c : ℕ),
    s.min_speech_frames ≤ s.min_silence_frames →
    1 ≤ s.min_speech_frames →
    s.speech_history = X ++ List.replicate c false →
    X.length + c ≤ s.min_silence_frames →
    LowRun s fs →
    c + fs.length = s.min_silence_frames →
    0 < fs.length →
    (process_frames s fs).is_speech = false := by
  induction fs with
  | nil =>
    intro s X c _ _ _ _ _ _ hpos
    simp at hpos
  | cons f fs ih =>
    intro s X c hsps hsp1 hh hbound hrun hlen hpos
    obtain ⟨hf, hraw, hrun'⟩ := hrun
    have hclt : c + 1 ≤ s.min_silence_frames := by
      simp only [List.length_cons] at hlen
      omega
    obtain ⟨X', hh', hb', -, hisp'⟩ := low_step_hist s f X c hf hraw hh hsps hbound hclt
    have hpfs : process_frames s (f :: fs) = process_frames (process_frame s f).2 fs := rfl
    have hsp' := min_sp_pf s f
    have hsil' := min_sil_pf s f
    rcases Nat.eq_zero_or_pos fs.length with hfs0 | hfspos
    · -- last frame: the history is now entirely silence
      have hfse : fs = [] := List.length_eq_zero.mp hfs0
      subst hfse
      simp only [List.length_cons, List.length_nil] at hlen
      have hceq : c + 1 = s.min_silence_frames := by omega
      have hX'0 : X' = [] := by
        rw [← List.length_eq_zero]
        omega
      rw [hpfs]
      show (process_frame s f).2.is_speech = false
      rw [hisp', hX'0, List.nil_append, hceq]
      exact determine_all_false _ _ _ hsp1 hsps
    · rw [hpfs]
      apply ih (process_frame s f).2 X' (c + 1)
      · rw [hsp', hsil']
        exact hsps
      · rw [hsp']
        exact hsp1
      · exact hh'
      · rw [hsil']
        exact hb'
      · exact hrun'
      · rw [hsil']
        simp only [List.length_cons] at hlen
        omega
      · exact hfspos

theorem count_not_allT_F (X : List Bool) (c : ℕ) (hX : ∀ b ∈ X, b = true) :
    ((X ++ List.replicate c false).filter (fun b => !b)).length = c := by
  rw [List.filter_append]
  have h1 : X.filter (fun b => !b) = [] := by
    rw [List.filter_eq_nil_iff]
    intro a ha
    rw [hX a ha]
    simp
  rw [h1, List.nil_append]
  have := filter_not_TF 0 c
  simpa using this

theorem determine_stay (X : List Bool) (c sp sil : ℕ) (hX : ∀ b ∈ X, b = true)
    (hlen : X.length + c ≤ sil) (hc : c < sil) :
    determine_speech_state (X ++ List.replicate c false) true sp sil = true := by
  rw [determine_speech_state]
  split
  · rfl
  · rw [if_neg (by simp)]
    rw [List.take_of_length_le (by simp; omega), count_not_allT_F X c hX]
    rw [decide_eq_false (show ¬ sil ≤ c by omega)]
    rfl

theorem release_run (fs : List (List ℝ)) : ∀ (s : VADState) (X : List Bool) (c : ℕ),
    s.is_speech = true →
    (∀ b ∈ X, b = true) →
    s.speech_history = X ++ List.replicate c false →
    s.min_speech_frames ≤ s.min_silence_frames →
    X.length + c ≤ s.min_silence_frames →
    LowRun s fs →
    c + fs.length < s.min_silence_frames →
    (process_frames s fs).is_speech = true := by
  induction fs with
  | nil =>
    intro s X c hs _ _ _ _ _ _
    simpa [process_frames] using hs
  | cons f fs ih =>
    intro s X c hs hX hh hsps hbound hrun hlen
    obtain ⟨hf, hraw, hrun'⟩ := hrun
    simp only [List.length_cons] at hlen
    have hclt : c + 1 ≤ s.min_silence_frames := by omega
    obtain ⟨X', hh', hb', hXor, hisp'⟩ :=
      low_step_hist s f X c hf hraw hh hsps hbound hclt
    have hX' : ∀ b ∈ X', b = true := by
      rcases hXor with rfl | rfl
      · exact hX
      · exact fun b hb => hX b (List.mem_of_mem_tail hb)
    have hs' : (process_frame s f).2.is_speech = true := by
      rw [hisp', hs]
      exact determine_stay X' (c + 1) _ _ hX' hb' (by omega)
    have hpfs : process_frames s (f :: fs) = process_frames (process_frame s f).2 fs := rfl
    rw [hpfs]
    exact ih (process_frame s f).2 X' (c + 1) hs' hX' hh'
      (by rw [min_sp_pf, min_sil_pf]; exact hsps)
      (by rw [min_sil_pf]; exact hb')
      hrun'
      (by rw [min_sil_pf]; omega)

theorem raw_loud_zero : rawOf vadLoudHist [0] = true := by
  rw [rawOf, rms_single_zero, rawSpeechAt, decide_eq_true_eq, dynThresholdAt, smoothedAt,
    windowAfter, noiseUpdated, pushWindow, vadLoudHist]
  norm_num [max_lt_iff]

theorem raw_mixed_zero : rawOf vadMixedHist [0] = false := by
  rw [rawOf, rms_single_zero, rawSpeechAt, decide_eq_false_iff_not, dynThresholdAt,
    smoothedAt, windowAfter, noiseUpdated, pushWindow, vadMixedHist]
  norm_num [le_max_iff]

theorem raw_speechW_zero : rawOf vadSpeechW [0] = false := by
  rw [rawOf, rms_single_zero, rawSpeechAt, decide_eq_false_iff_not, dynThresholdAt,
    smoothedAt, windowAfter, noiseUpdated, pushWindow, vadSpeechW]
  norm_num [le_max_iff]

theorem raw_state1 : rawOf (process_frame vadInit [1]).2 [1] = true := by
  rw [step1, rawOf, rms_single_one, rawSpeechAt, decide_eq_true_eq, dynThresholdAt,
    smoothedAt, windowAfter, noiseUpdated, pushWindow]
  norm_num [max_lt_iff]


/-! ### Claims about the voice activity detector -/

/-- C9: on every non-empty frame, `process_frame` leaves the adaptive noise
level unchanged when the detector is currently classified as speech, and
otherwise updates it to `noise·(1−α) + energy·α`. -/
theorem c9_noise_floor_update (s : VADState) (f : List ℝ) (hf : f ≠ []) :
    (process_frame s f).2.noise_level =
      if s.is_speech = true then s.noise_level
      else s.noise_level * (1 - s.noise_alpha) + calculate_rms_energy f * s.noise_alpha := by
  rw [process_frame_eq s f hf]
  dsimp only
  rw [noiseUpdated]

theorem c9_witness :
    ([(1 : ℝ)] ≠ []) ∧
    (process_frame vadInit [1]).2.noise_level =
      (if vadInit.is_speech = true then vadInit.noise_level
       else vadInit.noise_level * (1 - vadInit.noise_alpha)
          + calculate_rms_energy [1] * vadInit.noise_alpha) :=
  ⟨by simp, c9_noise_floor_update vadInit [1] (by simp)⟩

/-- C4 (amended): from the fresh/reset detector state (empty smoothing
window and history, silent), an all-zero frame yields `is_speech = false`
and `confidence = 0`, for every configured threshold.  The original "for
every detector state (any history)" fails: a loud recent history keeps the
smoothed energy above threshold, see the counterexample. -/
theorem c4_silence_invariant (s : VADState) (k : ℕ) (hk : 0 < k)
    (hw : s.energy_window = []) (hh : s.speech_history = [])
    (hs : s.is_speech = false) (hsp : 2 ≤ s.min_speech_frames)
    (hnf : 0 < s.noise_floor) (hws : 1 ≤ s.window_size) :
    (process_frame s (List.replicate k 0)).1.is_speech = false ∧
    (process_frame s (List.replicate k 0)).1.confidence = 0 := by
  have hf : List.replicate k (0 : ℝ) ≠ [] := by
    simp only [ne_eq, List.replicate_eq_nil_iff]
    omega
  have hmax : 2 ≤ max s.min_speech_frames s.min_silence_frames := by
    have := le_max_left s.min_speech_frames s.min_silence_frames
    omega
  have hrms := rms_replicate_zero k
  have hsm : smoothedAt s 0 = 0 := by
    rw [smoothedAt, windowAfter, hw, pushWindow_no_drop _ _ _ (by simp; omega)]
    simp
  have hdyn : 0 < dynThresholdAt s 0 := lt_of_lt_of_le hnf (le_max_right _ _)
  rw [process_frame_eq s _ hf]
  dsimp only
  constructor
  · rw [newSpeechOf, hh, pushHistory_no_drop _ _ _ (by simp; omega),
      determine_speech_state]
    simp only [List.nil_append, List.length_cons, List.length_nil]
    rw [if_pos (by omega), hs]
  · rw [confidenceOf, hrms, if_neg (by rw [hsm]; exact not_lt.mpr hdyn.le)]

theorem c4_silence_witness :
    (0 < 160) ∧
    (process_frame vadInit (List.replicate 160 0)).1.is_speech = false ∧
    (process_frame vadInit (List.replicate 160 0)).1.confidence = 0 :=
  ⟨by omega, c4_silence_invariant vadInit 160 (by omega) rfl rfl rfl
    (by rw [vadInit]) (by rw [vadInit]; norm_num) (by rw [vadInit]; exact Nat.one_le_ofNat)⟩

/-- C4 counterexample: a detector state with a loud smoothing window and a
speech history processes the all-zero frame `[0]` to `is_speech = true` and
`confidence = 3/5 ≠ 0`, so the claim fails for arbitrary detector states. -/
theorem c4_counterexample :
    (process_frame vadLoudHist [0]).1.is_speech = true ∧
    (process_frame vadLoudHist [0]).1.confidence = 3 / 5 := by
  rw [process_frame_eq _ _ (by simp)]
  dsimp only
  constructor
  · rw [newSpeechOf, raw_loud_zero]
    rw [show vadLoudHist.speech_history = [true, true, true] from rfl,
      show vadLoudHist.min_speech_frames = 2 from rfl,
      show vadLoudHist.min_silence_frames = 3 from rfl,
      show vadLoudHist.is_speech = true from rfl]
    decide
  · rw [confidenceOf, rms_single_zero]
    rw [if_pos ?hlt]
    case hlt =>
      rw [dynThresholdAt, smoothedAt, windowAfter, noiseUpdated, pushWindow, vadLoudHist]
      norm_num [max_lt_iff]
    rw [show dynThresholdAt vadLoudHist 0 = 1 / 2 from ?hdyn,
      show smoothedAt vadLoudHist 0 = 4 / 5 from ?hsm]
    · norm_num
    case hdyn =>
      rw [dynThresholdAt, noiseUpdated, vadLoudHist]
      norm_num [max_eq_right, max_eq_left]
    case hsm =>
      rw [smoothedAt, windowAfter, pushWindow, vadLoudHist]
      norm_num

/-- C5 (amended): for every non-empty frame the returned confidence equals
`clamp((smoothed − dyn)/dyn, 0, 1)` — determined by the raw comparison
`smoothed > dyn` alone, not by the returned `is_speech`.  The original
"confidence = 0 whenever is_speech is false" fails during hysteresis
activation, see the counterexample. -/
theorem c5_confidence_clamp (s : VADState) (f : List ℝ) (hf : f ≠ [])
    (hnf : 0 < s.noise_floor) :
    (process_frame s f).1.confidence =
      max 0 (min ((smoothedAt s (calculate_rms_energy f)
          - dynThresholdAt s (calculate_rms_energy f))
          / dynThresholdAt s (calculate_rms_energy f)) 1) := by
  have hdyn : 0 < dynThresholdAt s (calculate_rms_energy f) :=
    lt_of_lt_of_le hnf (le_max_right _ _)
  rw [process_frame_eq s f hf]
  dsimp only
  rw [confidenceOf]
  split
  · rename_i hlt
    rw [max_eq_right (le_min (div_pos (sub_pos.mpr hlt) hdyn).le zero_le_one)]
  · rename_i hge
    have hx : (smoothedAt s (calculate_rms_energy f)
        - dynThresholdAt s (calculate_rms_energy f))
        / dynThresholdAt s (calculate_rms_energy f) ≤ 0 := by
      rw [div_nonpos_iff]
      right
      exact ⟨sub_nonpos.mpr (not_lt.mp hge), hdyn.le⟩
    rw [max_eq_left (le_trans (min_le_left _ _) hx)]

theorem c5_witness :
    ([(1 : ℝ)] ≠ []) ∧ (0 < vadInit.noise_floor) ∧
    (process_frame vadInit [1]).1.confidence =
      max 0 (min ((smoothedAt vadInit (calculate_rms_energy [1])
          - dynThresholdAt vadInit (calculate_rms_energy [1]))
          / dynThresholdAt vadInit (calculate_rms_energy [1])) 1) :=
  ⟨by simp, by rw [vadInit]; norm_num,
    c5_confidence_clamp vadInit [1] (by simp) (by rw [vadInit]; norm_num)⟩

/-- C5 counterexample: on the first loud frame the detector still reports
`is_speech = false` (hysteresis) yet `confidence = 1 ≠ 0`, so "confidence
equals 0 whenever the returned is_speech is false" is false as stated. -/
theorem c5_counterexample :
    (process_frame vadInit [1]).1.is_speech = false ∧
    (process_frame vadInit [1]).1.confidence = 1 := by
  rw [process_frame_eq _ _ (by simp)]
  dsimp only
  constructor
  · rw [newSpeechOf]
    rw [show vadInit.speech_history = [] from rfl,
      show vadInit.min_speech_frames = 2 from rfl,
      show vadInit.min_silence_frames = 3 from rfl,
      show vadInit.is_speech = false from rfl]
    rw [pushHistory_no_drop _ _ _ (by simp), determine_speech_state]
    simp
  · rw [confidenceOf, rms_single_one]
    rw [if_pos ?hlt]
    case hlt =>
      rw [dynThresholdAt, smoothedAt, windowAfter, noiseUpdated, pushWindow, vadInit]
      norm_num [max_lt_iff]
    rw [show dynThresholdAt vadInit 1 = 1 / 2 from ?hdyn,
      show smoothedAt vadInit 1 = 1 from ?hsm]
    · norm_num
    case hdyn =>
      rw [dynThresholdAt, noiseUpdated, vadInit]
      norm_num [max_eq_right, max_eq_left]
    case hsm =>
      rw [smoothedAt, windowAfter, pushWindow, vadInit]
      norm_num

/-- C2: a detector configured with `min_speech_frames = 2`, starting silent
with an empty speech history (the fresh/reset silent state), becomes speech
after 2 consecutive frames whose smoothed energy exceeds the dynamic
threshold, and a single frame (qualifying or not) never flips it. -/
theorem c2_hysteresis_activation (s : VADState) (f1 f2 : List ℝ)
    (hh : s.speech_history = []) (hs : s.is_speech = false)
    (hsp : s.min_speech_frames = 2)
    (h1 : f1 ≠ []) (h2 : f2 ≠ [])
    (hr1 : rawOf s f1 = true) (hr2 : rawOf (process_frame s f1).2 f2 = true) :
    (process_frame s f1).1.is_speech = false ∧
    (process_frame (process_frame s f1).2 f2).1.is_speech = true := by
  have hmax : 2 ≤ max s.min_speech_frames s.min_silence_frames := by
    have := le_max_left s.min_speech_frames s.min_silence_frames
    omega
  have hns1 : newSpeechOf s f1 = false := by
    rw [newSpeechOf, hh, pushHistory_no_drop _ _ _ (by simp; omega),
      determine_speech_state]
    simp only [List.nil_append, List.length_cons, List.length_nil]
    rw [if_pos (by omega), hs]
  have hstate1 : (process_frame s f1).2.speech_history = [true] := by
    rw [process_frame_eq s f1 h1]
    dsimp only
    rw [hh, hr1, pushHistory_no_drop _ _ _ (by simp; omega)]
    simp
  have his1 : (process_frame s f1).2.is_speech = false := by
    rw [process_frame_eq s f1 h1]
    dsimp only
    exact hns1
  constructor
  · rw [process_frame_eq s f1 h1]
    dsimp only
    exact hns1
  · rw [process_frame_eq _ f2 h2]
    dsimp only
    rw [newSpeechOf, hstate1, hr2, min_sp_pf, min_sil_pf, hsp, his1]
    rw [pushHistory_no_drop _ _ _ (by simpa using le_max_left 2 s.min_silence_frames),
      determine_speech_state]
    simp

theorem c2_witness :
    vadInit.speech_history = [] ∧ vadInit.is_speech = false ∧
    vadInit.min_speech_frames = 2 ∧ ([(1 : ℝ)] ≠ []) ∧
    rawOf vadInit [1] = true ∧ rawOf (process_frame vadInit [1]).2 [1] = true ∧
    ((process_frame vadInit [1]).1.is_speech = false ∧
     (process_frame (process_frame vadInit [1]).2 [1]).1.is_speech = true) :=
  ⟨rfl, rfl, rfl, by simp, raw_init_one, raw_state1,
    c2_hysteresis_activation vadInit [1] [1] rfl rfl rfl (by simp) (by simp)
      raw_init_one raw_state1⟩

/-- C3 (amended): for the configurations the code constructs
(`1 ≤ min_speech_frames ≤ min_silence_frames`, history at most
`min_silence_frames` entries), a detector in speech state fed exactly
`min_silence_frames` consecutive raw-silent frames returns to silent; and
when the current speech history holds no silence entries, fewer such frames
leave it in speech.  (Without the history condition fewer frames can flip
it, see the counterexample.) -/
theorem c3_hysteresis_release (s : VADState) (fs : List (List ℝ))
    (hs : s.is_speech = true)
    (hsp1 : 1 ≤ s.min_speech_frames)
    (hsps : s.min_speech_frames ≤ s.min_silence_frames)
    (hhlen : s.speech_history.length ≤ s.min_silence_frames)
    (hrun : LowRun s fs)
    (hflen : fs.length ≤ s.min_silence_frames) :
    (fs.length = s.min_silence_frames → (process_frames s fs).is_speech = false) ∧
    ((∀ b ∈ s.speech_history, b = true) → fs.length < s.min_silence_frames →
      (process_frames s fs).is_speech = true) := by
  constructor
  · intro hfeq
    exact silence_run fs s s.speech_history 0 hsps hsp1 (by simp)
      (by simpa using hhlen) hrun (by omega) (by omega)
  · intro hall hflt
    exact release_run fs s s.speech_history 0 hs hall (by simp) hsps
      (by simpa using hhlen) hrun (by omega)

/-- C3 counterexample: a reachable-shape speech state whose history retains
two earlier silence classifications is returned to silent by a single
low-energy frame, although `1 < min_silence_frames = 3`; so "fewer than
min_silence_frames consecutive low-energy frames never returns it to false"
is false as stated. -/
theorem c3_counterexample :
    vadMixedHist.is_speech = true ∧
    (1 : ℕ) < vadMixedHist.min_silence_frames ∧
    rawOf vadMixedHist [0] = false ∧
    (process_frame vadMixedHist [0]).2.is_speech = false := by
  refine ⟨rfl, by norm_num [vadMixedHist], raw_mixed_zero, ?_⟩
  rw [process_frame_eq _ _ (by simp)]
  dsimp only
  rw [newSpeechOf, raw_mixed_zero,
    show vadMixedHist.speech_history = [true, false, false] from rfl,
    show vadMixedHist.min_speech_frames = 2 from rfl,
    show vadMixedHist.min_silence_frames = 3 from rfl,
    show vadMixedHist.is_speech = true from rfl]
  decide

theorem c3_witness :
    vadSpeechW.is_speech = true ∧
    1 ≤ vadSpeechW.min_speech_frames ∧
    vadSpeechW.min_speech_frames ≤ vadSpeechW.min_silence_frames ∧
    vadSpeechW.speech_history.length ≤ vadSpeechW.min_silence_frames ∧
    LowRun vadSpeechW [[0]] ∧
    ([[(0 : ℝ)]].length ≤ vadSpeechW.min_silence_frames) ∧
    ((∀ b ∈ vadSpeechW.speech_history, b = true) →
      [[(0 : ℝ)]].length < vadSpeechW.min_silence_frames →
      (process_frames vadSpeechW [[0]]).is_speech = true) :=
  ⟨rfl, by decide, by decide, by decide,
    ⟨by simp, raw_speechW_zero, trivial⟩, by decide,
    (c3_hysteresis_release vadSpeechW [[0]] rfl (by decide) (by decide) (by decide)
      ⟨by simp, raw_speechW_zero, trivial⟩ (by decide)).2⟩


end Vocatype
